import Mathlib

/- Verification of the `path_abs` repository core: the lexical path
cleaner and parent-canonicalizing resolver (src/algorithm.rs), the
validating constructors of the typed path hierarchy (src/entry.rs,
src/symlink.rs, src/ty.rs), and the test-support directory walker
(src/tests.rs).

Paths are Unix path strings, modelled as lists of characters. The host
operating system's filesystem operations (canonicalize, metadata,
rename, read_link) are external collaborators and are modelled as
oracles over an abstract filesystem state. -/

/-- A path is modelled as its list of characters (a Unix `OsStr`). -/
abbrev PathStr := List Char

/-- `std::path::Component`, consumed from the host path-parsing
interface: a Windows volume prefix (never produced by Unix parsing,
but present in the `match` of `clean_path`), the root marker, the
current-directory marker, the parent-directory marker, or a normal
named component. -/
inductive Component where
  | prefixComp (s : PathStr)
  | rootDir
  | curDir
  | parentDir
  | normal (s : PathStr)
  deriving DecidableEq, Repr

/-- Split a path string at every separator character, keeping empty
chunks; mirrors the chunking performed by `Path::components`. -/
def splitSep : PathStr → List PathStr
  | [] => [[]]
  | c :: rest =>
    if c = '/' then [] :: splitSep rest
    else
      match splitSep rest with
      | [] => [[c]]
      | h :: t => (c :: h) :: t

/-- Join chunks with the separator character (inverse of `splitSep` on
separator-free chunks). -/
def joinSep : List PathStr → PathStr
  | [] => []
  | [c] => c
  | c :: rest => c ++ '/' :: joinSep rest

/-- Whether the path has a root, i.e. begins with a separator. -/
def hasRoot (s : PathStr) : Bool := s.head? == some '/'

/-- Classify one non-empty, non-`"."` chunk as a component. -/
def parseChunk (c : PathStr) : Component :=
  if c = ['.', '.'] then Component.parentDir else Component.normal c

/-- The component sequence of a Unix path, mirroring the iteration of
`Path::components` from the host path interface: a leading separator
yields the root marker; a leading `"."` chunk of a relative path yields
one current-directory component; every other empty or `"."` chunk is
dropped; `".."` chunks are parent-directory components; all remaining
chunks are normal components. -/
def components (s : PathStr) : List Component :=
  let chunks := splitSep s
  let root := hasRoot s
  let curFirst := !root && (chunks.head? == some ['.'])
  (if root then [Component.rootDir] else [])
    ++ (if curFirst then [Component.curDir] else [])
    ++ (chunks.filter (fun c => !(c == []) && !(c == ['.']))).map parseChunk

/-- One iteration of the output-stack loop of `clean_path`
(src/algorithm.rs lines 74-116).  A current-directory component is
dropped; a parent-directory component is resolved against the top of
the stack (pushed over a prefix, dropped over the root, pushed over
another parent-directory or the empty stack, cancelling a normal
component); everything else is pushed.  The source marks the
current-directory-on-stack case `unreachable!()`; the model returns the
stack unchanged there, and the development proves a current-directory
component indeed never rests on the stack. -/
def cleanStep (stack : List Component) (component : Component) : List Component :=
  match component with
  | Component.curDir => stack
  | Component.parentDir =>
    match stack.getLast? with
    | some c =>
      match c with
      | Component.prefixComp _ => stack ++ [component]
      | Component.rootDir => stack
      | Component.curDir => stack
      | Component.parentDir => stack ++ [component]
      | Component.normal _ => stack.dropLast
    | none => stack ++ [component]
  | _ => stack ++ [component]

/-- The final stack produced by the loop of `clean_path` on a component
sequence. -/
def cleanStack (cs : List Component) : List Component :=
  cs.foldl cleanStep []

/-- The text of a component (`Component::as_os_str`). -/
def Component.asStr : Component → PathStr
  | Component.prefixComp s => s
  | Component.rootDir => ['/']
  | Component.curDir => ['.']
  | Component.parentDir => ['.', '.']
  | Component.normal s => s

/-- `PathBuf::push` for one pushed piece (Unix): an absolute piece
replaces the buffer; otherwise the piece is appended, inserting a
separator when the buffer is non-empty and does not already end in
one. -/
def pushStr (buf : PathStr) (s : PathStr) : PathStr :=
  if s.head? = some '/' then s
  else if buf = [] then s
  else if buf.getLast? = some '/' then buf ++ s
  else buf ++ '/' :: s

/-- The final `PathBuf` accumulation loop of `clean_path`
(src/algorithm.rs lines 123-127): push every stack component in
order. -/
def renderStack (stack : List Component) : PathStr :=
  stack.foldl (fun buf c => pushStr buf c.asStr) []

/-- `clean_path` (src/algorithm.rs lines 68-130): run the stack loop
over the path's components; if the resulting stack is empty return the
single current-directory marker, otherwise render the stack. -/
def clean_path (path : PathStr) : PathStr :=
  let stack := cleanStack (components path)
  if stack = [] then ['.'] else renderStack stack

/-- A normal-component name as produced by parsing: non-empty, not a
current- or parent-directory marker, separator-free. -/
def validName (s : PathStr) : Bool :=
  !(s == []) && !(s == ['.']) && !(s == ['.', '.']) && !(s.contains '/')

/-- Whether a component is a normal component with a valid name. -/
def Component.isName : Component → Bool
  | Component.normal s => validName s
  | _ => false

/-- A component whose text is non-empty and separator-free (every
parent-directory or valid normal component qualifies). -/
def goodComp (c : Component) : Prop := c.asStr ≠ [] ∧ '/' ∉ c.asStr

/-- `Path::file_name` from the host path interface (spec section 6):
the final component when it is a normal name, nothing otherwise. -/
def file_name (p : PathStr) : Option PathStr :=
  match (components p).getLast? with
  | some (Component.normal n) => some n
  | _ => none

/-- `Path::parent` from the host path interface (spec section 6): the
path with its final component removed, when that final component is a
current-, parent-, or normal component; nothing when the path is empty
or consists only of a root or prefix. -/
def parentOf (p : PathStr) : Option PathStr :=
  match (components p).getLast? with
  | none => none
  | some Component.rootDir => none
  | some (Component.prefixComp _) => none
  | some _ => some (renderStack (components p).dropLast)

/-- `split_file_name` (src/algorithm.rs lines 33-41): the pair of the
parent and the final file name, when both are present.  As the source
notes, `parent` can succeed while `file_name` fails (try `"/.."`). -/
def split_file_name (path : PathStr) : Option (PathStr × PathStr) :=
  match parentOf path, file_name path with
  | some parent, some name => some (parent, name)
  | _, _ => none

/-- `canonicalize_parent` (src/algorithm.rs lines 23-31), generic in
the fallible canonicalization primitive `canon`: if the input does not
split into a parent and a file name, canonicalize the whole path;
otherwise canonicalize only the parent and lexically re-append the
file name (`PathArc::join` is the host `Path::join`, i.e. `pushStr`;
spec section 4.3 specifies it as a purely lexical join). -/
def canonicalize_parent {ε : Type} (canon : PathStr → Except ε PathStr)
    (path : PathStr) : Except ε PathStr :=
  match split_file_name path with
  | none => canon path
  | some (parent, name) => (canon parent).map (fun p => pushStr p name)

/-- `std::io::ErrorKind`, restricted to the kinds the core
distinguishes (spec section 7). -/
inductive IoKind where
  | notFound
  | invalidInput
  | otherErr
  deriving DecidableEq, Repr

/-- A host OS error: a kind and a message. -/
structure IoError where
  kind : IoKind
  msg : String
  deriving DecidableEq, Repr

/-- The crate's error value (lib.rs is absent from src/; modelled from
the spec, section 7): the underlying OS error, a short action
description, and the path being operated on. -/
structure Error where
  io : IoError
  action : PathStr
  path : PathStr
  deriving DecidableEq, Repr

/-- The file-type bits exposed by host metadata (spec section 6). -/
inductive FileType where
  | file
  | dir
  | symlink
  | other
  deriving DecidableEq, Repr

/-- The host filesystem interface (spec section 6) as oracles over an
abstract filesystem state `σ`: canonicalize, the two metadata queries,
rename, and read_link.  These operations are external collaborators
whose implementation is not part of the repository. -/
structure FsOps (σ : Type) where
  canonicalizeOp : σ → PathStr → Except IoError PathStr
  symlinkMetaOp : σ → PathStr → Except IoError FileType
  metadataOp : σ → PathStr → Except IoError FileType
  renameOp : σ → PathStr → PathStr → Except IoError σ
  readLinkOp : σ → PathStr → Except IoError PathStr

/-- The action text of a rename failure, `"renaming to {to} from"`
(src/entry.rs line 101, src/symlink.rs line 96). -/
def renameAction (dst : PathStr) : PathStr :=
  ("renaming to ".data) ++ dst ++ (" from".data)

/-- Modelled from the spec: `PathArc::canonicalize` (arc.rs is absent
from src/) invokes the host canonicalize primitive and wraps a failure
with an action and the operated-on path (spec sections 4.5, 7). -/
def PathArc.canonicalize {σ : Type} (fs : FsOps σ) (st : σ) (p : PathStr) :
    Except Error PathStr :=
  match fs.canonicalizeOp st p with
  | Except.ok q => Except.ok q
  | Except.error e => Except.error ⟨e, "canonicalizing".data, p⟩

/-- Modelled from the spec: `PathArc::symlink_metadata` (arc.rs is
absent from src/) performs the symlink-style host metadata query and
wraps a failure with an action and the path (spec sections 6, 7). -/
def PathArc.symlink_metadata {σ : Type} (fs : FsOps σ) (st : σ) (p : PathStr) :
    Except Error FileType :=
  match fs.symlinkMetaOp st p with
  | Except.ok t => Except.ok t
  | Except.error e => Except.error ⟨e, "getting symlink_metadata of".data, p⟩

/-- Modelled from the spec: `PathArc::metadata` (arc.rs is absent from
src/) performs the symlink-following host metadata query and wraps a
failure with an action and the path (spec sections 6, 7). -/
def PathArc.metadata {σ : Type} (fs : FsOps σ) (st : σ) (p : PathStr) :
    Except Error FileType :=
  match fs.metadataOp st p with
  | Except.ok t => Except.ok t
  | Except.error e => Except.error ⟨e, "getting metadata of".data, p⟩

/-- Modelled from the spec: `PathArc::read_link` (arc.rs is absent from
src/) invokes the host read_link primitive and wraps a failure with an
action and the path (spec sections 6, 7). -/
def PathArc.read_link {σ : Type} (fs : FsOps σ) (st : σ) (p : PathStr) :
    Except Error PathStr :=
  match fs.readLinkOp st p with
  | Except.ok q => Except.ok q
  | Except.error e => Except.error ⟨e, "reading link".data, p⟩

/-- Modelled from the spec: `PathArc::canonicalize_entry` (arc.rs is
absent from src/): resolve via the parent-canonicalization of spec
section 4.2 (`canonicalize_parent`, which is in src/), then require a
successful symlink-style metadata query on the result (spec section
4.4), failing with the wrapped OS error otherwise. -/
def PathArc.canonicalize_entry {σ : Type} (fs : FsOps σ) (st : σ) (p : PathStr) :
    Except Error PathStr :=
  match canonicalize_parent (PathArc.canonicalize fs st) p with
  | Except.error e => Except.error e
  | Except.ok resolved =>
    match PathArc.symlink_metadata fs st resolved with
    | Except.ok _ => Except.ok resolved
    | Except.error e => Except.error e

/-- `PathEntry::new` (src/entry.rs lines 50-52): canonicalize via
`canonicalize_entry`.  The resulting entry is represented by its
path. -/
def PathEntry.new {σ : Type} (fs : FsOps σ) (st : σ) (p : PathStr) :
    Except Error PathStr :=
  PathArc.canonicalize_entry fs st p

/-- `PathSymlink::from_entry` (src/symlink.rs lines 41-51): query the
symlink-style metadata and demand the symlink file-type bit, failing
with an InvalidInput error carrying the path otherwise. -/
def PathSymlink.from_entry {σ : Type} (fs : FsOps σ) (st : σ) (entry : PathStr) :
    Except Error PathStr :=
  match PathArc.symlink_metadata fs st entry with
  | Except.error e => Except.error e
  | Except.ok t =>
    if t = FileType.symlink then Except.ok entry
    else Except.error
      ⟨⟨IoKind.invalidInput, "path is not a link"⟩, "resolving".data, entry⟩

/-- `PathSymlink::new` (src/symlink.rs lines 26-28): validate as an
entry, then demand a symlink. -/
def PathSymlink.new {σ : Type} (fs : FsOps σ) (st : σ) (p : PathStr) :
    Except Error PathStr :=
  (PathEntry.new fs st p).bind (PathSymlink.from_entry fs st)

/-- `PathEntry::rename` (src/entry.rs lines 97-106): invoke the host
rename primitive, wrapping its failure with the rename action and the
source path; on success, re-validate the destination via
`PathSymlink::new`.  The state after a successful OS rename is `st2`;
a failure of the re-validation is returned even though the rename has
already happened. -/
def PathEntry.rename {σ : Type} (fs : FsOps σ) (st : σ) (self dst : PathStr) :
    Except Error PathStr :=
  match fs.renameOp st self dst with
  | Except.error err => Except.error ⟨err, renameAction dst, self⟩
  | Except.ok st2 => PathSymlink.new fs st2 dst

/-- `PathBuf::pop` from the host path interface: truncate to the
parent; a path with no parent is left unchanged. -/
def popBuf (p : PathStr) : PathStr :=
  match parentOf p with
  | some q => q
  | none => p

/-- `Path::with_file_name` from the host path interface (spec section
6): pop the final file name when there is one, then push the given
piece (an absolute piece therefore replaces the whole path). -/
def with_file_name (p name : PathStr) : PathStr :=
  pushStr (if (file_name p).isSome then popBuf p else p) name

/-- `PathSymlink::target` (src/symlink.rs lines 70-73): read the raw
link target and re-attach the directory stem of the link's own path
via `with_file_name`. -/
def PathSymlink.target {σ : Type} (fs : FsOps σ) (st : σ) (self : PathStr) :
    Except Error PathStr :=
  (PathArc.read_link fs st self).map (fun link => with_file_name self link)

/-- `PathType` (src/ty.rs lines 26-29): a file or a directory, each
carrying its (absolute) path. -/
inductive PathType where
  | file (p : PathStr)
  | dir (p : PathStr)
  deriving DecidableEq, Repr

/-- `PathType::from_abs` (src/ty.rs lines 51-64): one metadata query;
the file bit yields the File variant, the directory bit the Dir
variant, and anything else an InvalidInput error carrying the rejected
path. -/
def PathType.from_abs {σ : Type} (fs : FsOps σ) (st : σ) (abs : PathStr) :
    Except Error PathType :=
  match PathArc.metadata fs st abs with
  | Except.error e => Except.error e
  | Except.ok ty =>
    if ty = FileType.file then Except.ok (PathType.file abs)
    else if ty = FileType.dir then Except.ok (PathType.dir abs)
    else Except.error
      ⟨⟨IoKind.invalidInput, "path is not a dir or a file"⟩, "resolving".data, abs⟩

/-- `EntryType` (src/ty.rs lines 284-290): anything a directory might
contain, each variant carrying its path. -/
inductive EntryType where
  | file (p : PathStr)
  | dir (p : PathStr)
  | symlink (p : PathStr)
  | other (p : PathStr)
  deriving DecidableEq, Repr

/-- `EntryType::from_entry` (src/ty.rs lines 313-324): one
symlink-style metadata query; the symlink bit yields the Symlink
variant, then the file and directory bits their variants, and
everything else the Other fallback — never a classification error. -/
def EntryType.from_entry {σ : Type} (fs : FsOps σ) (st : σ) (entry : PathStr) :
    Except Error EntryType :=
  match PathArc.symlink_metadata fs st entry with
  | Except.error e => Except.error e
  | Except.ok ty =>
    if ty = FileType.symlink then Except.ok (EntryType.symlink entry)
    else if ty = FileType.file then Except.ok (EntryType.file entry)
    else if ty = FileType.dir then Except.ok (EntryType.dir entry)
    else Except.ok (EntryType.other entry)

mutual
/-- A directory tree as enumerated by the external walker: every node
carries its canonical absolute path. -/
inductive FsTree where
  | file (p : PathStr)
  | dir (p : PathStr) (children : FsForest)
/-- A list of sibling trees, in the walker's enumeration order. -/
inductive FsForest where
  | nil
  | cons (t : FsTree) (rest : FsForest)
end

/-- `FoundPaths` (src/tests.rs lines 6-9). -/
structure FoundPaths where
  files : List PathStr
  dirs : List PathStr
  deriving DecidableEq, Repr

mutual
/-- `discover_paths` (src/tests.rs lines 30-68) over a modelled tree:
the external `WalkDir` yields entries in depth-first pre-order, and
`skip_current_dir` on a visited directory corresponds to not recursing
below it; `PathAbs::new` is the identity here because the modelled
tree already stores canonical absolute paths.  A visited entry is
skipped; a directory is recorded and recursed into; a file is recorded
when the filter accepts it. -/
def discover_paths (filter : PathStr → Bool) (visited : List PathStr) :
    FsTree → FoundPaths
  | FsTree.file p =>
    if p ∈ visited then ⟨[], []⟩
    else if filter p then ⟨[p], []⟩ else ⟨[], []⟩
  | FsTree.dir p children =>
    if p ∈ visited then ⟨[], []⟩
    else
      let rest := discover_forest filter visited children
      ⟨rest.files, p :: rest.dirs⟩

/-- `discover_paths` continued over the children of a directory. -/
def discover_forest (filter : PathStr → Bool) (visited : List PathStr) :
    FsForest → FoundPaths
  | FsForest.nil => ⟨[], []⟩
  | FsForest.cons t rest =>
    let a := discover_paths filter visited t
    let b := discover_forest filter visited rest
    ⟨a.files ++ b.files, a.dirs ++ b.dirs⟩
end

/-- A concrete one-state filesystem whose rename always fails; used to
evaluate the theorems at concrete inputs. -/
def fsRenameFail : FsOps Unit where
  canonicalizeOp := fun _ p => Except.ok p
  symlinkMetaOp := fun _ _ => Except.ok FileType.symlink
  metadataOp := fun _ _ => Except.ok FileType.file
  renameOp := fun _ _ _ => Except.error ⟨IoKind.otherErr, "crossed devices"⟩
  readLinkOp := fun _ _ => Except.error ⟨IoKind.otherErr, "not a link"⟩

/-- A concrete one-state filesystem whose rename succeeds but whose
entries are regular files rather than symlinks. -/
def fsRenameNotLink : FsOps Unit where
  canonicalizeOp := fun _ p => Except.ok p
  symlinkMetaOp := fun _ _ => Except.ok FileType.file
  metadataOp := fun _ _ => Except.ok FileType.file
  renameOp := fun _ _ _ => Except.ok ()
  readLinkOp := fun _ _ => Except.error ⟨IoKind.otherErr, "not a link"⟩

/-- A concrete one-state filesystem whose entries are symlinks with raw
target `"c"`. -/
def fsLink : FsOps Unit where
  canonicalizeOp := fun _ p => Except.ok p
  symlinkMetaOp := fun _ _ => Except.ok FileType.symlink
  metadataOp := fun _ _ => Except.ok FileType.dir
  renameOp := fun _ _ _ => Except.ok ()
  readLinkOp := fun _ _ => Except.ok ("c".data)

/-- The re-validation error produced when a rename destination is not a
symlink; used to evaluate the rename theorem at a concrete input. -/
def errNotLinkW : Error :=
  ⟨⟨IoKind.invalidInput, "path is not a link"⟩, "resolving".data, "a/b".data⟩

example : clean_path ("/recipes/./snacks/../desserts/banana_creme_pie.txt".data)
    = ("/recipes/desserts/banana_creme_pie.txt".data) := by decide

example : clean_path ("../.././lots///of////./separators/".data)
    = ("../../lots/of/separators".data) := by decide

example : clean_path ("".data) = (".".data) := by decide

example : clean_path ("./a/./b/".data) = ("a/b".data) := by decide

/-- Claim C1: `clean_path` resolves each parent-directory component
against the top of its output stack per the spec's five cases: dropped
when the top is the root marker, pushed when the top is a prefix,
another parent-directory component, or the stack is empty, and popping
a normal component; in particular it maps
`"/../../../cannot_go_above_root"` to `"/cannot_go_above_root"` and
`"a/../../b"` to `"../b"`. -/
theorem clean_path_parentDir_cases :
    (∀ stack : List Component, stack.getLast? = some Component.rootDir →
      cleanStep stack Component.parentDir = stack)
    ∧ (∀ (stack : List Component) (p : PathStr),
        stack.getLast? = some (Component.prefixComp p) →
        cleanStep stack Component.parentDir = stack ++ [Component.parentDir])
    ∧ (∀ stack : List Component, stack.getLast? = some Component.parentDir →
        cleanStep stack Component.parentDir = stack ++ [Component.parentDir])
    ∧ (∀ stack : List Component, stack.getLast? = none →
        cleanStep stack Component.parentDir = stack ++ [Component.parentDir])
    ∧ (∀ (stack : List Component) (n : PathStr),
        stack.getLast? = some (Component.normal n) →
        cleanStep stack Component.parentDir = stack.dropLast)
    ∧ clean_path ("/../../../cannot_go_above_root".data)
        = ("/cannot_go_above_root".data)
    ∧ clean_path ("a/../../b".data) = ("../b".data) := by
  refine ⟨?_, ?_, ?_, ?_, ?_, by decide, by decide⟩
  · intro stack h; simp [cleanStep, h]
  · intro stack p h; simp [cleanStep, h]
  · intro stack h; simp [cleanStep, h]
  · intro stack h; simp [cleanStep, h]
  · intro stack n h; simp [cleanStep, h]

/-- Witness for claim C1: the five parent-directory cases evaluated on
concrete stacks. -/
theorem clean_path_parentDir_cases_witness :
    cleanStep [Component.rootDir] Component.parentDir = [Component.rootDir]
    ∧ cleanStep [Component.prefixComp ['C']] Component.parentDir
        = [Component.prefixComp ['C'], Component.parentDir]
    ∧ cleanStep [Component.parentDir] Component.parentDir
        = [Component.parentDir, Component.parentDir]
    ∧ cleanStep ([] : List Component) Component.parentDir = [Component.parentDir]
    ∧ cleanStep [Component.normal ['a']] Component.parentDir = [] :=
  ⟨clean_path_parentDir_cases.1 _ (by decide),
    clean_path_parentDir_cases.2.1 [Component.prefixComp ['C']] ['C'] (by decide),
    clean_path_parentDir_cases.2.2.1 _ (by decide),
    clean_path_parentDir_cases.2.2.2.1 _ (by decide),
    clean_path_parentDir_cases.2.2.2.2.1 [Component.normal ['a']] ['a'] (by decide)⟩

/-- Claim C4: `canonicalize_parent` splits the path into parent and
final file name; when the split fails (no parent or no distinguishable
file name, e.g. the root or `"/.."`) it canonicalizes the whole path
via the primitive, and otherwise it canonicalizes only the parent and
lexically appends the file name with no further canonicalization
call. -/
theorem canonicalize_parent_spec :
    (∀ (ε : Type) (canon : PathStr → Except ε PathStr) (path : PathStr),
      split_file_name path = none → canonicalize_parent canon path = canon path)
    ∧ (∀ (ε : Type) (canon : PathStr → Except ε PathStr) (path parent name : PathStr),
        split_file_name path = some (parent, name) →
        canonicalize_parent canon path = (canon parent).map (fun p => pushStr p name))
    ∧ (∀ path : PathStr,
        split_file_name path = none ↔ (parentOf path = none ∨ file_name path = none))
    ∧ split_file_name ("/".data) = none
    ∧ split_file_name ("/..".data) = none := by
  refine ⟨?_, ?_, ?_, by decide, by decide⟩
  · intro ε canon path h; simp [canonicalize_parent, h]
  · intro ε canon path parent name h; simp [canonicalize_parent, h]
  · intro path
    unfold split_file_name
    cases h1 : parentOf path <;> cases h2 : file_name path <;> simp

/-- Witness for claim C4: the two branches of `canonicalize_parent`
evaluated at `"/"` (no split) and `"a/b"` (split into parent `"a"` and
name `"b"`), with the identity canonicalization primitive. -/
theorem canonicalize_parent_spec_witness :
    split_file_name ("/".data) = none
    ∧ canonicalize_parent (fun p => (Except.ok p : Except Unit PathStr)) ("/".data)
        = Except.ok ("/".data)
    ∧ split_file_name ("a/b".data) = some ("a".data, "b".data)
    ∧ canonicalize_parent (fun p => (Except.ok p : Except Unit PathStr)) ("a/b".data)
        = Except.ok (pushStr ("a".data) ("b".data)) :=
  ⟨by decide,
    canonicalize_parent_spec.1 Unit (fun p => Except.ok p) _ (by decide),
    by decide,
    canonicalize_parent_spec.2.1 Unit (fun p => Except.ok p) _ _ _ (by decide)⟩

/-- An error returned by `canonicalize_parent` comes from the
canonicalization primitive. -/
theorem canonicalize_parent_error {ε : Type} (canon : PathStr → Except ε PathStr)
    (path : PathStr) (e : ε) (h : canonicalize_parent canon path = Except.error e) :
    ∃ q : PathStr, canon q = Except.error e := by
  unfold canonicalize_parent at h
  cases hs : split_file_name path with
  | none => rw [hs] at h; exact ⟨path, h⟩
  | some pr =>
    obtain ⟨parent, name⟩ := pr
    rw [hs] at h
    refine ⟨parent, ?_⟩
    have h2 : Except.map (fun p => pushStr p name) (canon parent) = Except.error e := h
    cases hc : canon parent with
    | error a => rw [hc] at h2; simp [Except.map] at h2; rw [h2]
    | ok a => rw [hc] at h2; simp [Except.map] at h2

/-- A failing `PathArc::canonicalize` reports the canonicalizing
action. -/
theorem PathArc.canonicalize_error_action {σ : Type} (fs : FsOps σ) (st : σ)
    (p : PathStr) (e : Error) (h : PathArc.canonicalize fs st p = Except.error e) :
    e.action = "canonicalizing".data := by
  unfold PathArc.canonicalize at h
  cases hc : fs.canonicalizeOp st p <;> rw [hc] at h <;> simp at h
  rw [← h]

/-- A failing `PathArc::symlink_metadata` reports the metadata
action. -/
theorem PathArc.symlink_metadata_error_action {σ : Type} (fs : FsOps σ) (st : σ)
    (p : PathStr) (e : Error)
    (h : PathArc.symlink_metadata fs st p = Except.error e) :
    e.action = "getting symlink_metadata of".data := by
  unfold PathArc.symlink_metadata at h
  cases hc : fs.symlinkMetaOp st p <;> rw [hc] at h <;> simp at h
  rw [← h]

/-- Every error returned by `PathSymlink::new` carries one of the
re-validation actions: canonicalizing, querying metadata, or
resolving. -/
theorem PathSymlink.new_error_action {σ : Type} (fs : FsOps σ) (st : σ)
    (p : PathStr) (e : Error) (h : PathSymlink.new fs st p = Except.error e) :
    e.action = "canonicalizing".data
      ∨ e.action = "getting symlink_metadata of".data
      ∨ e.action = "resolving".data := by
  unfold PathSymlink.new PathEntry.new PathArc.canonicalize_entry at h
  cases hc : canonicalize_parent (PathArc.canonicalize fs st) p with
  | error e1 =>
    rw [hc] at h
    simp [Except.bind] at h
    obtain ⟨q, hq⟩ := canonicalize_parent_error _ _ _ hc
    rw [h] at hq
    exact Or.inl (PathArc.canonicalize_error_action fs st q e hq)
  | ok resolved =>
    rw [hc] at h
    have h2 : (match PathArc.symlink_metadata fs st resolved with
        | Except.ok _ => Except.ok resolved
        | Except.error e => Except.error e).bind (PathSymlink.from_entry fs st)
        = Except.error e := h
    cases hm : PathArc.symlink_metadata fs st resolved with
    | error e2 =>
      rw [hm] at h2
      simp [Except.bind] at h2
      rw [h2] at hm
      exact Or.inr (Or.inl (PathArc.symlink_metadata_error_action fs st resolved e hm))
    | ok t =>
      rw [hm] at h2
      simp [Except.bind, PathSymlink.from_entry, hm] at h2
      by_cases ht : t = FileType.symlink
      · simp [ht] at h2
      · simp [ht] at h2
        exact Or.inr (Or.inr (by rw [← h2]))

/-- The rename action text always begins with the three letters
`ren`. -/
theorem renameAction_take (dst : PathStr) :
    (renameAction dst).take 3 = ['r', 'e', 'n'] := rfl

/-- None of the re-validation actions is the rename action. -/
theorem revalidation_action_ne_renameAction (dst : PathStr) :
    "canonicalizing".data ≠ renameAction dst
    ∧ "getting symlink_metadata of".data ≠ renameAction dst
    ∧ "resolving".data ≠ renameAction dst := by
  refine ⟨?_, ?_, ?_⟩ <;>
    · intro h
      have h2 := congrArg (List.take 3) h
      rw [renameAction_take] at h2
      exact absurd h2 (by decide)

/-- Claim C5: `PathEntry::rename` first invokes the host rename
primitive (a failure there is reported with the rename action and the
source path) and then re-validates the destination via
`PathSymlink::new`, i.e. as an entry that must be a symlink; when the
host rename succeeded (state `st2`) but the re-validation failed, the
re-validation error is returned as-is, and its action is never the
rename action — the half-applied case is reported distinctly. -/
theorem PathEntry_rename_spec :
    ∀ (σ : Type) (fs : FsOps σ) (st : σ) (self dst : PathStr),
    (∀ e0 : IoError, fs.renameOp st self dst = Except.error e0 →
      PathEntry.rename fs st self dst = Except.error ⟨e0, renameAction dst, self⟩)
    ∧ (∀ st2 : σ, fs.renameOp st self dst = Except.ok st2 →
        PathEntry.rename fs st self dst = PathSymlink.new fs st2 dst)
    ∧ (∀ (st2 : σ) (e : Error), fs.renameOp st self dst = Except.ok st2 →
        PathSymlink.new fs st2 dst = Except.error e →
        PathEntry.rename fs st self dst = Except.error e
          ∧ e.action ≠ renameAction dst) := by
  intro σ fs st self dst
  refine ⟨?_, ?_, ?_⟩
  · intro e0 h; simp [PathEntry.rename, h]
  · intro st2 h; simp [PathEntry.rename, h]
  · intro st2 e h hv
    refine ⟨by simp [PathEntry.rename, h, hv], ?_⟩
    rcases PathSymlink.new_error_action fs st2 dst e hv with ha | ha | ha <;>
      · rw [ha]
        first
        | exact (revalidation_action_ne_renameAction dst).1
        | exact (revalidation_action_ne_renameAction dst).2.1
        | exact (revalidation_action_ne_renameAction dst).2.2

/-- Witness for claim C5: a rename that fails at the host primitive is
reported with the rename action, and a rename whose destination turns
out to be a regular file returns the re-validation error, whose action
is not the rename action. -/
theorem PathEntry_rename_spec_witness :
    fsRenameFail.renameOp () ("a".data) ("b".data)
        = Except.error ⟨IoKind.otherErr, "crossed devices"⟩
    ∧ PathEntry.rename fsRenameFail () ("a".data) ("b".data)
        = Except.error ⟨⟨IoKind.otherErr, "crossed devices"⟩,
            renameAction ("b".data), "a".data⟩
    ∧ fsRenameNotLink.renameOp () ("a".data) ("a/b".data) = Except.ok ()
    ∧ PathSymlink.new fsRenameNotLink () ("a/b".data) = Except.error errNotLinkW
    ∧ PathEntry.rename fsRenameNotLink () ("a".data) ("a/b".data)
        = Except.error errNotLinkW
    ∧ errNotLinkW.action ≠ renameAction ("a/b".data) :=
  ⟨rfl,
    (PathEntry_rename_spec Unit fsRenameFail () ("a".data) ("b".data)).1 _ rfl,
    rfl,
    rfl,
    ((PathEntry_rename_spec Unit fsRenameNotLink () ("a".data) ("a/b".data)).2.2
      () errNotLinkW rfl rfl).1,
    ((PathEntry_rename_spec Unit fsRenameNotLink () ("a".data) ("a/b".data)).2.2
      () errNotLinkW rfl rfl).2⟩

/-- Claim C6: `PathType::from_abs` performs exactly one metadata query
on the given absolute path — its result depends only on the metadata
oracle's answer at that path — and branches into the matching variant:
File for the regular-file bit, Dir for the directory bit, and otherwise
an InvalidInput error carrying the rejected path. -/
theorem PathType_from_abs_spec :
    ∀ (σ : Type) (fs : FsOps σ) (st : σ) (abs : PathStr),
    (fs.metadataOp st abs = Except.ok FileType.file →
      PathType.from_abs fs st abs = Except.ok (PathType.file abs))
    ∧ (fs.metadataOp st abs = Except.ok FileType.dir →
        PathType.from_abs fs st abs = Except.ok (PathType.dir abs))
    ∧ (∀ ty : FileType, fs.metadataOp st abs = Except.ok ty →
        ty ≠ FileType.file → ty ≠ FileType.dir →
        PathType.from_abs fs st abs = Except.error
          ⟨⟨IoKind.invalidInput, "path is not a dir or a file"⟩,
            "resolving".data, abs⟩)
    ∧ (∀ (fs2 : FsOps σ) (st2 : σ),
        fs2.metadataOp st2 abs = fs.metadataOp st abs →
        PathType.from_abs fs2 st2 abs = PathType.from_abs fs st abs) := by
  intro σ fs st abs
  refine ⟨?_, ?_, ?_, ?_⟩
  · intro h; simp [PathType.from_abs, PathArc.metadata, h]
  · intro h; simp [PathType.from_abs, PathArc.metadata, h]
  · intro ty h h1 h2
    simp [PathType.from_abs, PathArc.metadata, h, h1, h2]
  · intro fs2 st2 h
    unfold PathType.from_abs PathArc.metadata
    rw [h]

/-- Witness for claim C6: a filesystem whose metadata query answers
"regular file" makes `from_abs` return the File variant, one answering
"symlink" makes it fail with InvalidInput carrying the path, and two
filesystems agreeing on the query agree on the result. -/
theorem PathType_from_abs_spec_witness :
    fsRenameFail.metadataOp () ("a".data) = Except.ok FileType.file
    ∧ PathType.from_abs fsRenameFail () ("a".data)
        = Except.ok (PathType.file ("a".data))
    ∧ fsLink.metadataOp () ("a".data) = Except.ok FileType.dir
    ∧ PathType.from_abs fsLink () ("a".data) = Except.ok (PathType.dir ("a".data))
    ∧ fsRenameNotLink.metadataOp () ("a".data) = fsRenameFail.metadataOp () ("a".data)
    ∧ PathType.from_abs fsRenameNotLink () ("a".data)
        = PathType.from_abs fsRenameFail () ("a".data) :=
  ⟨rfl,
    (PathType_from_abs_spec Unit fsRenameFail () ("a".data)).1 rfl,
    rfl,
    (PathType_from_abs_spec Unit fsLink () ("a".data)).2.1 rfl,
    rfl,
    (PathType_from_abs_spec Unit fsRenameFail () ("a".data)).2.2.2
      fsRenameNotLink () rfl⟩

/-- Claim C7: `EntryType::from_entry` never fails with a classification
error: whenever the symlink-style metadata query succeeds it returns
exactly one of the four variants (Symlink for the symlink bit, File for
a regular file, Dir for a directory, Other for everything else), and
its only failure propagates the metadata query's own error. -/
theorem EntryType_from_entry_spec :
    ∀ (σ : Type) (fs : FsOps σ) (st : σ) (entry : PathStr),
    (fs.symlinkMetaOp st entry = Except.ok FileType.symlink →
      EntryType.from_entry fs st entry = Except.ok (EntryType.symlink entry))
    ∧ (fs.symlinkMetaOp st entry = Except.ok FileType.file →
        EntryType.from_entry fs st entry = Except.ok (EntryType.file entry))
    ∧ (fs.symlinkMetaOp st entry = Except.ok FileType.dir →
        EntryType.from_entry fs st entry = Except.ok (EntryType.dir entry))
    ∧ (fs.symlinkMetaOp st entry = Except.ok FileType.other →
        EntryType.from_entry fs st entry = Except.ok (EntryType.other entry))
    ∧ (∀ ty : FileType, fs.symlinkMetaOp st entry = Except.ok ty →
        ∃ r : EntryType, EntryType.from_entry fs st entry = Except.ok r)
    ∧ (∀ e : IoError, fs.symlinkMetaOp st entry = Except.error e →
        EntryType.from_entry fs st entry
          = Except.error ⟨e, "getting symlink_metadata of".data, entry⟩) := by
  intro σ fs st entry
  refine ⟨?_, ?_, ?_, ?_, ?_, ?_⟩
  · intro h; simp [EntryType.from_entry, PathArc.symlink_metadata, h]
  · intro h; simp [EntryType.from_entry, PathArc.symlink_metadata, h]
  · intro h; simp [EntryType.from_entry, PathArc.symlink_metadata, h]
  · intro h; simp [EntryType.from_entry, PathArc.symlink_metadata, h]
  · intro ty h
    cases ty <;> simp [EntryType.from_entry, PathArc.symlink_metadata, h]
  · intro e h; simp [EntryType.from_entry, PathArc.symlink_metadata, h]

/-- Witness for claim C7: the four file types each classify into their
variant on concrete filesystems, and a failing query propagates. -/
theorem EntryType_from_entry_spec_witness :
    fsRenameFail.symlinkMetaOp () ("a".data) = Except.ok FileType.symlink
    ∧ EntryType.from_entry fsRenameFail () ("a".data)
        = Except.ok (EntryType.symlink ("a".data))
    ∧ fsRenameNotLink.symlinkMetaOp () ("a".data) = Except.ok FileType.file
    ∧ EntryType.from_entry fsRenameNotLink () ("a".data)
        = Except.ok (EntryType.file ("a".data))
    ∧ (∃ r : EntryType,
        EntryType.from_entry fsRenameFail () ("a".data) = Except.ok r) :=
  ⟨rfl,
    (EntryType_from_entry_spec Unit fsRenameFail () ("a".data)).1 rfl,
    rfl,
    (EntryType_from_entry_spec Unit fsRenameNotLink () ("a".data)).2.1 rfl,
    (EntryType_from_entry_spec Unit fsRenameFail () ("a".data)).2.2.2.2.1
      FileType.symlink rfl⟩

/-- Claim C8: `PathSymlink::target` returns the raw link target
corrected for relativity via `with_file_name`: an absolute raw target
is returned unchanged, and a relative one is attached to the directory
stem of the link's own path (the link path with its final component
popped); concretely, a link `/a/b` with raw target `c` yields `/a/c`
and with raw target `/x/y` yields `/x/y`. -/
theorem PathSymlink_target_spec :
    ∀ (σ : Type) (fs : FsOps σ) (st : σ) (self raw : PathStr),
    (fs.readLinkOp st self = Except.ok raw →
      PathSymlink.target fs st self = Except.ok (with_file_name self raw))
    ∧ (raw.head? = some '/' → with_file_name self raw = raw)
    ∧ (∀ n : PathStr, file_name self = some n →
        with_file_name self raw = pushStr (popBuf self) raw)
    ∧ with_file_name ("/a/b".data) ("c".data) = ("/a/c".data)
    ∧ with_file_name ("/a/b".data) ("/x/y".data) = ("/x/y".data) := by
  intro σ fs st self raw
  refine ⟨?_, ?_, ?_, by decide, by decide⟩
  · intro h; simp [PathSymlink.target, PathArc.read_link, h, Except.map]
  · intro h; simp [with_file_name, pushStr, h]
  · intro n h; simp [with_file_name, h]

/-- Witness for claim C8: a concrete symlink `/a/b` whose raw target is
the relative `c` resolves to `/a/c`. -/
theorem PathSymlink_target_spec_witness :
    fsLink.readLinkOp () ("/a/b".data) = Except.ok ("c".data)
    ∧ PathSymlink.target fsLink () ("/a/b".data)
        = Except.ok (with_file_name ("/a/b".data) ("c".data))
    ∧ file_name ("/a/b".data) = some ("b".data)
    ∧ with_file_name ("/a/b".data) ("c".data)
        = pushStr (popBuf ("/a/b".data)) ("c".data) :=
  ⟨rfl,
    (PathSymlink_target_spec Unit fsLink () ("/a/b".data) ("c".data)).1 rfl,
    by decide,
    (PathSymlink_target_spec Unit fsLink () ("/a/b".data) ("c".data)).2.2.1
      ("b".data) (by decide)⟩

mutual
/-- Over a tree, the directories found by `discover_paths` do not
depend on the filter, and the files found are the unfiltered files
restricted by the filter. -/
theorem discover_filter_tree (filter : PathStr → Bool)
    (visited : List PathStr) :
    ∀ t : FsTree,
      (discover_paths filter visited t).dirs
          = (discover_paths (fun _ => true) visited t).dirs
      ∧ (discover_paths filter visited t).files
          = ((discover_paths (fun _ => true) visited t).files).filter filter
  | FsTree.file p => by
    by_cases hv : p ∈ visited
    · simp [discover_paths, hv]
    · by_cases hf : filter p <;> simp [discover_paths, hv, hf]
  | FsTree.dir p children => by
    have ih := discover_filter_forest filter visited children
    by_cases hv : p ∈ visited
    · simp [discover_paths, hv]
    · simp [discover_paths, hv, ih.1, ih.2]

/-- The forest version of `discover_filter_tree`. -/
theorem discover_filter_forest (filter : PathStr → Bool)
    (visited : List PathStr) :
    ∀ f : FsForest,
      (discover_forest filter visited f).dirs
          = (discover_forest (fun _ => true) visited f).dirs
      ∧ (discover_forest filter visited f).files
          = ((discover_forest (fun _ => true) visited f).files).filter filter
  | FsForest.nil => by simp [discover_forest]
  | FsForest.cons t rest => by
    have iht := discover_filter_tree filter visited t
    have ihr := discover_filter_forest filter visited rest
    simp [discover_forest, iht.1, iht.2, ihr.1, ihr.2, List.filter_append]
end

/-- Claim C9: in `discover_paths` the caller-supplied filter is applied
only to files, never to directories: for every filter the returned
dirs equal those returned with the always-true filter, and the
returned files are exactly the files of the always-true run (the
discovered non-visited files) that the filter accepts. -/
theorem discover_paths_filter_spec :
    ∀ (filter : PathStr → Bool) (visited : List PathStr) (t : FsTree),
      (discover_paths filter visited t).dirs
          = (discover_paths (fun _ => true) visited t).dirs
      ∧ (discover_paths filter visited t).files
          = ((discover_paths (fun _ => true) visited t).files).filter filter :=
  fun filter visited t => discover_filter_tree filter visited t

mutual
/-- Over a tree, a path in the visited set appears in neither result
collection of `discover_paths`. -/
theorem discover_visited_tree (filter : PathStr → Bool)
    (visited : List PathStr) (p : PathStr) (hp : p ∈ visited) :
    ∀ t : FsTree,
      p ∉ (discover_paths filter visited t).files
        ∧ p ∉ (discover_paths filter visited t).dirs
  | FsTree.file q => by
    by_cases hv : q ∈ visited
    · simp [discover_paths, hv]
    · have hne : p ≠ q := fun hpq => hv (hpq ▸ hp)
      by_cases hf : filter q <;> simp [discover_paths, hv, hf, hne]
  | FsTree.dir q children => by
    by_cases hv : q ∈ visited
    · simp [discover_paths, hv]
    · have hne : p ≠ q := fun hpq => hv (hpq ▸ hp)
      have ih := discover_visited_forest filter visited p hp children
      simp [discover_paths, hv, hne, ih.1, ih.2]

/-- The forest version of `discover_visited_tree`. -/
theorem discover_visited_forest (filter : PathStr → Bool)
    (visited : List PathStr) (p : PathStr) (hp : p ∈ visited) :
    ∀ f : FsForest,
      p ∉ (discover_forest filter visited f).files
        ∧ p ∉ (discover_forest filter visited f).dirs
  | FsForest.nil => by simp [discover_forest]
  | FsForest.cons t rest => by
    have iht := discover_visited_tree filter visited p hp t
    have ihr := discover_visited_forest filter visited p hp rest
    simp [discover_forest, iht.1, iht.2, ihr.1, ihr.2]
end

/-- Claim C10: `discover_paths` skips every path in the caller-supplied
visited set, not only directories: a visited path appears in neither
the files nor the dirs collection, and a visited directory node
contributes nothing at all (it is not descended into). -/
theorem discover_paths_visited_spec :
    (∀ (filter : PathStr → Bool) (visited : List PathStr) (t : FsTree)
        (p : PathStr), p ∈ visited →
      p ∉ (discover_paths filter visited t).files
        ∧ p ∉ (discover_paths filter visited t).dirs)
    ∧ (∀ (filter : PathStr → Bool) (visited : List PathStr) (p : PathStr)
        (children : FsForest), p ∈ visited →
        discover_paths filter visited (FsTree.dir p children)
          = FoundPaths.mk [] []) := by
  constructor
  · intro filter visited t p hp
    exact discover_visited_tree filter visited p hp t
  · intro filter visited p children hp
    simp [discover_paths, hp]

/-- Witness for claim C10: with `a` visited, discovering the tree
rooted at directory `a` (containing file `a/f`) yields nothing, and
`a` is in neither collection. -/
theorem discover_paths_visited_spec_witness :
    ("a".data) ∈ [("a".data)]
    ∧ (("a".data) ∉ (discover_paths (fun _ => true) [("a".data)]
          (FsTree.dir ("a".data)
            (FsForest.cons (FsTree.file ("a/f".data)) FsForest.nil))).files
        ∧ ("a".data) ∉ (discover_paths (fun _ => true) [("a".data)]
            (FsTree.dir ("a".data)
              (FsForest.cons (FsTree.file ("a/f".data)) FsForest.nil))).dirs)
    ∧ discover_paths (fun _ => true) [("a".data)]
        (FsTree.dir ("a".data)
          (FsForest.cons (FsTree.file ("a/f".data)) FsForest.nil))
        = FoundPaths.mk [] [] :=
  ⟨by decide,
    discover_paths_visited_spec.1 (fun _ => true) [("a".data)]
      (FsTree.dir ("a".data)
        (FsForest.cons (FsTree.file ("a/f".data)) FsForest.nil))
      ("a".data) (by decide),
    discover_paths_visited_spec.2 (fun _ => true) [("a".data)] ("a".data)
      (FsForest.cons (FsTree.file ("a/f".data)) FsForest.nil) (by decide)⟩

/-- `splitSep` never returns the empty list of chunks. -/
theorem splitSep_ne_nil : ∀ s : PathStr, splitSep s ≠ [] := by
  intro s
  cases s with
  | nil => simp [splitSep]
  | cons c rest =>
    simp only [splitSep]
    split
    · simp
    · split <;> simp

/-- Chunks produced by `splitSep` contain no separator. -/
theorem splitSep_no_sep : ∀ (s c : PathStr), c ∈ splitSep s → '/' ∉ c := by
  intro s
  induction s with
  | nil =>
    intro c hc
    simp [splitSep] at hc
    simp [hc]
  | cons ch rest ih =>
    intro c hc
    by_cases h : ch = '/'
    · rw [splitSep, if_pos h] at hc
      rcases List.mem_cons.mp hc with h1 | h1
      · simp [h1]
      · exact ih c h1
    · rw [splitSep, if_neg h] at hc
      cases hs : splitSep rest with
      | nil => exact absurd hs (splitSep_ne_nil rest)
      | cons hd tl =>
        rw [hs] at hc
        rcases List.mem_cons.mp hc with h1 | h1
        · subst h1
          intro hmem
          rcases List.mem_cons.mp hmem with h2 | h2
          · exact h h2.symm
          · exact ih hd (by rw [hs]; exact List.mem_cons_self hd tl) h2
        · exact ih c (by rw [hs]; exact List.mem_cons.mpr (Or.inr h1))

/-- Splitting a separator-free string yields that single chunk. -/
theorem splitSep_nosep : ∀ a : PathStr, '/' ∉ a → splitSep a = [a] := by
  intro a
  induction a with
  | nil => intro _; rfl
  | cons ch rest ih =>
    intro h
    have hch : ch ≠ '/' := fun he => h (he ▸ List.mem_cons_self ch rest)
    have hrest : '/' ∉ rest := fun hm => h (List.mem_cons_of_mem ch hm)
    rw [splitSep, if_neg hch, ih hrest]

/-- Splitting after a separator-free prefix peels off that chunk. -/
theorem splitSep_append_sep :
    ∀ (a r : PathStr), '/' ∉ a → splitSep (a ++ '/' :: r) = a :: splitSep r := by
  intro a
  induction a with
  | nil => intro r _; rw [List.nil_append, splitSep, if_pos rfl]
  | cons ch rest ih =>
    intro r h
    have hch : ch ≠ '/' := fun he => h (he ▸ List.mem_cons_self ch rest)
    have hrest : '/' ∉ rest := fun hm => h (List.mem_cons_of_mem ch hm)
    rw [List.cons_append, splitSep, if_neg hch, ih r hrest]

/-- `joinSep` with a non-empty tail inserts one separator. -/
theorem joinSep_cons_ne (c : PathStr) (rest : List PathStr) (h : rest ≠ []) :
    joinSep (c :: rest) = c ++ '/' :: joinSep rest := by
  cases rest with
  | nil => exact absurd rfl h
  | cons d tl => rfl

/-- `splitSep` is a left inverse of `joinSep` on non-empty lists of
separator-free chunks. -/
theorem splitSep_joinSep :
    ∀ l : List PathStr, l ≠ [] → (∀ c ∈ l, '/' ∉ c) → splitSep (joinSep l) = l := by
  intro l
  induction l with
  | nil => intro h; exact absurd rfl h
  | cons c rest ih =>
    intro _ hl
    cases rest with
    | nil => exact splitSep_nosep c (hl c (List.mem_cons_self c []))
    | cons d tl =>
      rw [joinSep_cons_ne c (d :: tl) (by simp),
        splitSep_append_sep c _ (hl c (List.mem_cons_self c _)),
        ih (by simp) (fun x hx => hl x (List.mem_cons_of_mem c hx))]

/-- Gluing a separator-joined piece onto the head chunk commutes with
`joinSep`. -/
theorem joinSep_glue (a b : PathStr) (l : List PathStr) :
    joinSep ((a ++ '/' :: b) :: l) = a ++ '/' :: joinSep (b :: l) := by
  cases l with
  | nil => rw [joinSep, joinSep]
  | cons x xs =>
    rw [joinSep_cons_ne (a ++ '/' :: b) (x :: xs) (by simp),
      joinSep_cons_ne b (x :: xs) (by simp)]
    simp [List.append_assoc]

/-- `joinSep` on a non-empty list begins with the head chunk. -/
theorem joinSep_cons_exists (a : PathStr) (l : List PathStr) :
    ∃ t : PathStr, joinSep (a :: l) = a ++ t := by
  cases l with
  | nil => exact ⟨[], (List.append_nil a).symm⟩
  | cons x xs => exact ⟨'/' :: joinSep (x :: xs), joinSep_cons_ne a (x :: xs) (by simp)⟩

/-- A parent-directory component has good text. -/
theorem goodComp_parentDir : goodComp Component.parentDir := by
  constructor <;> simp [Component.asStr]

/-- A valid normal component has good text. -/
theorem goodComp_of_isName (c : Component) (h : c.isName = true) : goodComp c := by
  cases c with
  | normal s =>
    simp only [Component.isName, validName, Bool.and_eq_true, Bool.not_eq_true',
      beq_eq_false_iff_ne, ne_eq] at h
    refine ⟨h.1.1.1, ?_⟩
    intro hm
    have h2 : s.contains '/' = true := List.elem_iff.mpr hm
    rw [h.2] at h2
    exact Bool.false_ne_true h2
  | prefixComp s => simp [Component.isName] at h
  | rootDir => simp [Component.isName] at h
  | curDir => simp [Component.isName] at h
  | parentDir => simp [Component.isName] at h

/-- Pushing good text onto a non-empty buffer that does not end in a
separator appends it after one separator. -/
theorem pushStr_good (buf s : PathStr) (hs1 : s ≠ []) (hs2 : '/' ∉ s)
    (hb1 : buf ≠ []) (hb2 : buf.getLast? ≠ some '/') :
    pushStr buf s = buf ++ '/' :: s := by
  have hh : s.head? ≠ some '/' := by
    cases s with
    | nil => simp
    | cons c t =>
      simp only [List.head?_cons, ne_eq, Option.some.injEq]
      intro he
      exact hs2 (he ▸ List.mem_cons_self c t)
  rw [pushStr, if_neg hh, if_neg hb1, if_neg hb2]

/-- The rendering fold over good components, from a suitable buffer,
is a separator-join. -/
theorem renderFold_good :
    ∀ (cs : List Component) (buf : PathStr), buf ≠ [] →
      buf.getLast? ≠ some '/' → (∀ c ∈ cs, goodComp c) →
      List.foldl (fun b c => pushStr b c.asStr) buf cs
        = joinSep (buf :: cs.map Component.asStr) := by
  intro cs
  induction cs with
  | nil => intro buf _ _ _; rfl
  | cons c cs' ih =>
    intro buf hb1 hb2 hcs
    have hc := hcs c (List.mem_cons_self c cs')
    have hstep : pushStr buf c.asStr = buf ++ '/' :: c.asStr :=
      pushStr_good buf c.asStr hc.1 hc.2 hb1 hb2
    have hb1' : buf ++ '/' :: c.asStr ≠ [] := by simp
    have hb2' : (buf ++ '/' :: c.asStr).getLast? ≠ some '/' := by
      rw [List.getLast?_append_cons]
      have hgl : ('/' :: c.asStr).getLast? = c.asStr.getLast? :=
        List.getLast?_append_of_ne_nil ['/'] hc.1
      rw [hgl]
      intro he
      exact hc.2 (List.mem_of_getLast?_eq_some he)
    calc List.foldl (fun b c => pushStr b c.asStr) buf (c :: cs')
        = List.foldl (fun b c => pushStr b c.asStr) (buf ++ '/' :: c.asStr) cs' := by
          rw [List.foldl_cons, hstep]
      _ = joinSep ((buf ++ '/' :: c.asStr) :: cs'.map Component.asStr) :=
          ih _ hb1' hb2' (fun x hx => hcs x (List.mem_cons_of_mem c hx))
      _ = joinSep (buf :: (c :: cs').map Component.asStr) := by
          rw [List.map_cons, joinSep_glue,
            joinSep_cons_ne buf (c.asStr :: cs'.map Component.asStr) (by simp)]

/-- Rendering a non-empty stack of good components joins their texts
with separators. -/
theorem renderStack_good (c : Component) (cs : List Component)
    (hc : goodComp c) (hcs : ∀ x ∈ cs, goodComp x) :
    renderStack (c :: cs) = joinSep ((c :: cs).map Component.asStr) := by
  have hh : c.asStr.head? ≠ some '/' := by
    cases he : c.asStr with
    | nil => simp
    | cons a t =>
      simp only [List.head?_cons, ne_eq, Option.some.injEq]
      intro ha
      exact hc.2 (he ▸ ha ▸ List.mem_cons_self a t)
  have hfirst : pushStr [] c.asStr = c.asStr := by
    rw [pushStr, if_neg hh, if_pos rfl]
  have hb2 : c.asStr.getLast? ≠ some '/' := by
    intro hg
    exact hc.2 (List.mem_of_getLast?_eq_some hg)
  rw [renderStack, List.foldl_cons, hfirst,
    renderFold_good cs c.asStr hc.1 hb2 hcs, List.map_cons]

/-- Rendering a rooted stack of good components produces a separator
followed by the joined texts. -/
theorem renderStack_root (ns : List Component) (h : ∀ c ∈ ns, goodComp c) :
    renderStack (Component.rootDir :: ns)
      = '/' :: joinSep (ns.map Component.asStr) := by
  have hfirst : pushStr [] (Component.rootDir.asStr) = ['/'] := rfl
  cases ns with
  | nil => rfl
  | cons n rest =>
    have hn := h n (List.mem_cons_self n rest)
    have hh : n.asStr.head? ≠ some '/' := by
      cases he : n.asStr with
      | nil => simp
      | cons a t =>
        simp only [List.head?_cons, ne_eq, Option.some.injEq]
        intro ha
        exact hn.2 (he ▸ ha ▸ List.mem_cons_self a t)
    have hstep : pushStr ['/'] n.asStr = '/' :: n.asStr := by
      rw [pushStr, if_neg hh, if_neg (by simp),
        if_pos (show (['/'] : PathStr).getLast? = some '/' from rfl)]
      rfl
    have hb2 : ('/' :: n.asStr).getLast? ≠ some '/' := by
      have : ('/' :: n.asStr).getLast? = n.asStr.getLast? :=
        List.getLast?_append_of_ne_nil ['/'] hn.1
      rw [this]
      intro hg
      exact hn.2 (List.mem_of_getLast?_eq_some hg)
    rw [renderStack, List.foldl_cons, hfirst, List.foldl_cons, hstep,
      renderFold_good rest ('/' :: n.asStr) (by simp) hb2
        (fun x hx => h x (List.mem_cons_of_mem n hx)),
      List.map_cons]
    have : ('/' :: n.asStr) = [] ++ '/' :: n.asStr := rfl
    rw [this, joinSep_glue, List.nil_append]

/-- `cleanStep` pushes any normal component. -/
theorem cleanStep_normal (stack : List Component) (s : PathStr) :
    cleanStep stack (Component.normal s) = stack ++ [Component.normal s] := rfl

/-- A component that is a parent-directory or a valid name. -/
def chunkComp (c : Component) : Prop :=
  c = Component.parentDir ∨ c.isName = true

/-- Folding the stack loop over parent-or-name components preserves
the relative shape: parent-directory components followed by valid
names. -/
theorem cleanFold_rel :
    ∀ (cs : List Component), (∀ c ∈ cs, chunkComp c) →
    ∀ (ps ns : List Component),
      (∀ c ∈ ps, c = Component.parentDir) → (∀ c ∈ ns, c.isName = true) →
      ∃ ps' ns', List.foldl cleanStep (ps ++ ns) cs = ps' ++ ns'
        ∧ (∀ c ∈ ps', c = Component.parentDir) ∧ (∀ c ∈ ns', c.isName = true) := by
  intro cs
  induction cs with
  | nil => intro _ ps ns hps hns; exact ⟨ps, ns, rfl, hps, hns⟩
  | cons c cs' ih =>
    intro hcs ps ns hps hns
    have hrest : ∀ x ∈ cs', chunkComp x :=
      fun x hx => hcs x (List.mem_cons_of_mem c hx)
    rcases hcs c (List.mem_cons_self c cs') with hc | hc
    · subst hc
      by_cases hn : ns = []
      · subst hn
        by_cases hp : ps = []
        · subst hp
          have hstep : cleanStep ([] ++ []) Component.parentDir
              = [Component.parentDir] ++ [] := rfl
          rw [List.foldl_cons, hstep]
          exact ih hrest [Component.parentDir] []
            (by intro x hx; simpa using hx) (by intro x hx; simp at hx)
        · have hlast : (ps ++ ([] : List Component)).getLast?
              = some Component.parentDir := by
            rw [List.append_nil]
            cases hg : ps.getLast? with
            | none => exact absurd (List.getLast?_eq_none_iff.mp hg) hp
            | some x =>
              rw [hps x (List.mem_of_getLast?_eq_some hg)]
          have hstep : cleanStep (ps ++ []) Component.parentDir
              = (ps ++ [Component.parentDir]) ++ [] := by
            rw [cleanStep, hlast]
            simp
          rw [List.foldl_cons, hstep]
          refine ih hrest (ps ++ [Component.parentDir]) [] ?_ (by intro x hx; simp at hx)
          intro x hx
          rcases List.mem_append.mp hx with h1 | h1
          · exact hps x h1
          · simpa using h1
      · have hlast : ∃ m : PathStr, (ps ++ ns).getLast? = some (Component.normal m) := by
          rw [List.getLast?_append_of_ne_nil ps hn]
          cases hg : ns.getLast? with
          | none => exact absurd (List.getLast?_eq_none_iff.mp hg) hn
          | some x =>
            have hx := hns x (List.mem_of_getLast?_eq_some hg)
            cases x with
            | normal m => exact ⟨m, rfl⟩
            | prefixComp s => simp [Component.isName] at hx
            | rootDir => simp [Component.isName] at hx
            | curDir => simp [Component.isName] at hx
            | parentDir => simp [Component.isName] at hx
        obtain ⟨m, hlast⟩ := hlast
        have hstep : cleanStep (ps ++ ns) Component.parentDir = ps ++ ns.dropLast := by
          rw [cleanStep, hlast, List.dropLast_append_of_ne_nil ps hn]
        rw [List.foldl_cons, hstep]
        exact ih hrest ps ns.dropLast hps
          (fun x hx => hns x (List.mem_of_mem_dropLast hx))
    · have hnorm : ∃ m : PathStr, c = Component.normal m := by
        cases c with
        | normal m => exact ⟨m, rfl⟩
        | prefixComp s => simp [Component.isName] at hc
        | rootDir => simp [Component.isName] at hc
        | curDir => simp [Component.isName] at hc
        | parentDir => simp [Component.isName] at hc
      obtain ⟨m, rfl⟩ := hnorm
      rw [List.foldl_cons, cleanStep_normal, List.append_assoc]
      refine ih hrest ps (ns ++ [Component.normal m]) hps ?_
      intro x hx
      rcases List.mem_append.mp hx with h1 | h1
      · exact hns x h1
      · rw [List.mem_singleton.mp h1]
        exact hc

/-- Folding the stack loop over parent-or-name components preserves
the rooted shape: the root marker followed by valid names. -/
theorem cleanFold_abs :
    ∀ (cs : List Component), (∀ c ∈ cs, chunkComp c) →
    ∀ ns : List Component, (∀ c ∈ ns, c.isName = true) →
      ∃ ns', List.foldl cleanStep (Component.rootDir :: ns) cs
          = Component.rootDir :: ns'
        ∧ (∀ c ∈ ns', c.isName = true) := by
  intro cs
  induction cs with
  | nil => intro _ ns hns; exact ⟨ns, rfl, hns⟩
  | cons c cs' ih =>
    intro hcs ns hns
    have hrest : ∀ x ∈ cs', chunkComp x :=
      fun x hx => hcs x (List.mem_cons_of_mem c hx)
    rcases hcs c (List.mem_cons_self c cs') with hc | hc
    · subst hc
      by_cases hn : ns = []
      · subst hn
        have hstep : cleanStep [Component.rootDir] Component.parentDir
            = [Component.rootDir] := rfl
        rw [List.foldl_cons, hstep]
        exact ih hrest [] (by intro x hx; simp at hx)
      · have hlast : ∃ m : PathStr,
            (Component.rootDir :: ns).getLast? = some (Component.normal m) := by
          rw [show (Component.rootDir :: ns) = [Component.rootDir] ++ ns from rfl,
            List.getLast?_append_of_ne_nil [Component.rootDir] hn]
          cases hg : ns.getLast? with
          | none => exact absurd (List.getLast?_eq_none_iff.mp hg) hn
          | some x =>
            have hx := hns x (List.mem_of_getLast?_eq_some hg)
            cases x with
            | normal m => exact ⟨m, rfl⟩
            | prefixComp s => simp [Component.isName] at hx
            | rootDir => simp [Component.isName] at hx
            | curDir => simp [Component.isName] at hx
            | parentDir => simp [Component.isName] at hx
        obtain ⟨m, hlast⟩ := hlast
        have hstep : cleanStep (Component.rootDir :: ns) Component.parentDir
            = Component.rootDir :: ns.dropLast := by
          rw [cleanStep, hlast,
            show (Component.rootDir :: ns) = [Component.rootDir] ++ ns from rfl,
            List.dropLast_append_of_ne_nil [Component.rootDir] hn]
          rfl
        rw [List.foldl_cons, hstep]
        exact ih hrest ns.dropLast
          (fun x hx => hns x (List.mem_of_mem_dropLast hx))
    · have hnorm : ∃ m : PathStr, c = Component.normal m := by
        cases c with
        | normal m => exact ⟨m, rfl⟩
        | prefixComp s => simp [Component.isName] at hc
        | rootDir => simp [Component.isName] at hc
        | curDir => simp [Component.isName] at hc
        | parentDir => simp [Component.isName] at hc
      obtain ⟨m, rfl⟩ := hnorm
      have hstep : cleanStep (Component.rootDir :: ns) (Component.normal m)
          = Component.rootDir :: (ns ++ [Component.normal m]) := by
        rw [cleanStep_normal]
        rfl
      rw [List.foldl_cons, hstep]
      refine ih hrest (ns ++ [Component.normal m]) ?_
      intro x hx
      rcases List.mem_append.mp hx with h1 | h1
      · exact hns x h1
      · rw [List.mem_singleton.mp h1]
        exact hc

/-- A non-empty, non-`"."`, separator-free chunk parses to a
parent-directory or valid-name component. -/
theorem chunkComp_parseChunk (c : PathStr) (h1 : c ≠ []) (h2 : c ≠ ['.'])
    (h3 : '/' ∉ c) : chunkComp (parseChunk c) := by
  unfold parseChunk chunkComp
  by_cases h : c = ['.', '.']
  · rw [if_pos h]
    exact Or.inl rfl
  · rw [if_neg h]
    refine Or.inr ?_
    simp only [Component.isName, validName, Bool.and_eq_true, Bool.not_eq_true',
      beq_eq_false_iff_ne, ne_eq]
    refine ⟨⟨⟨h1, h2⟩, h⟩, ?_⟩
    cases hcon : c.contains '/' with
    | false => rfl
    | true => exact absurd (List.elem_iff.mp (hcon : List.elem '/' c = true)) h3

/-- Every parsed chunk component of a path is a parent-directory or a
valid name. -/
theorem components_chunks (s : PathStr) :
    ∀ c ∈ ((splitSep s).filter
        (fun c => !(c == []) && !(c == ['.']))).map parseChunk,
      chunkComp c := by
  intro c hc
  rcases List.mem_map.mp hc with ⟨a, ha, rfl⟩
  have hmem := (List.mem_filter.mp ha).1
  have hpred := (List.mem_filter.mp ha).2
  simp only [Bool.and_eq_true, Bool.not_eq_true', beq_eq_false_iff_ne, ne_eq] at hpred
  exact chunkComp_parseChunk a hpred.1 hpred.2 (splitSep_no_sep s a hmem)

/-- The definition of `components`, written out. -/
theorem components_def (s : PathStr) :
    components s = ((if hasRoot s = true then [Component.rootDir] else [])
      ++ (if (!hasRoot s && ((splitSep s).head? == some ['.'])) = true
          then [Component.curDir] else []))
      ++ ((splitSep s).filter (fun c => !(c == []) && !(c == ['.']))).map parseChunk :=
  rfl

/-- The shape of the final stack of `clean_path`: for a rooted path,
the root marker followed by valid names; otherwise, parent-directory
markers followed by valid names. -/
theorem cleanStack_shape (s : PathStr) :
    (hasRoot s = true → ∃ ns, cleanStack (components s) = Component.rootDir :: ns
      ∧ ∀ c ∈ ns, c.isName = true)
    ∧ (hasRoot s = false → ∃ ps ns, cleanStack (components s) = ps ++ ns
      ∧ (∀ c ∈ ps, c = Component.parentDir) ∧ (∀ c ∈ ns, c.isName = true)) := by
  constructor
  · intro hr
    have hcomp : components s = Component.rootDir
        :: ((splitSep s).filter (fun c => !(c == []) && !(c == ['.']))).map parseChunk := by
      rw [components_def, hr]
      simp
    rw [cleanStack, hcomp, List.foldl_cons,
      show cleanStep [] Component.rootDir = Component.rootDir :: [] from rfl]
    obtain ⟨ns, heq, hns⟩ := cleanFold_abs _ (components_chunks s) []
      (by intro x hx; simp at hx)
    exact ⟨ns, heq, hns⟩
  · intro hr
    have hfold : ∃ ps ns,
        List.foldl cleanStep []
          (((splitSep s).filter (fun c => !(c == []) && !(c == ['.']))).map parseChunk)
          = ps ++ ns
        ∧ (∀ c ∈ ps, c = Component.parentDir) ∧ (∀ c ∈ ns, c.isName = true) :=
      cleanFold_rel _ (components_chunks s) [] []
        (by intro x hx; simp at hx) (by intro x hx; simp at hx)
    cases hhd : ((splitSep s).head? == some ['.']) with
    | true =>
      have hcomp : components s = Component.curDir
          :: ((splitSep s).filter (fun c => !(c == []) && !(c == ['.']))).map parseChunk := by
        rw [components_def, hr, hhd]
        simp
      rw [cleanStack, hcomp, List.foldl_cons,
        show cleanStep [] Component.curDir = ([] : List Component) from rfl]
      exact hfold
    | false =>
      have hcomp : components s
          = ((splitSep s).filter (fun c => !(c == []) && !(c == ['.']))).map parseChunk := by
        rw [components_def, hr, hhd]
        simp
      rw [cleanStack, hcomp]
      exact hfold

/-- A component satisfying `isName` is a normal component. -/
theorem isName_normal (c : Component) (h : c.isName = true) :
    ∃ m : PathStr, c = Component.normal m := by
  cases c with
  | normal m => exact ⟨m, rfl⟩
  | prefixComp s => simp [Component.isName] at h
  | rootDir => simp [Component.isName] at h
  | curDir => simp [Component.isName] at h
  | parentDir => simp [Component.isName] at h

/-- Folding the stack loop over valid names pushes them all. -/
theorem cleanFold_push_names :
    ∀ ns : List Component, (∀ c ∈ ns, c.isName = true) →
      ∀ stack : List Component, List.foldl cleanStep stack ns = stack ++ ns := by
  intro ns
  induction ns with
  | nil => intro _ stack; simp
  | cons c rest ih =>
    intro h stack
    obtain ⟨m, rfl⟩ := isName_normal c (h c (List.mem_cons_self c rest))
    rw [List.foldl_cons, cleanStep_normal,
      ih (fun x hx => h x (List.mem_cons_of_mem _ hx)), List.append_assoc]
    rfl

/-- Folding the stack loop over parent-directory components, starting
from a stack of parent-directory components, pushes them all. -/
theorem cleanFold_push_parents :
    ∀ ps : List Component, (∀ c ∈ ps, c = Component.parentDir) →
      ∀ acc : List Component, (∀ c ∈ acc, c = Component.parentDir) →
      List.foldl cleanStep acc ps = acc ++ ps := by
  intro ps
  induction ps with
  | nil => intro _ acc _; simp
  | cons c rest ih =>
    intro h acc hacc
    have hc := h c (List.mem_cons_self c rest)
    subst hc
    have hstep : cleanStep acc Component.parentDir = acc ++ [Component.parentDir] := by
      cases hg : acc.getLast? with
      | none => rw [cleanStep, hg]
      | some x =>
        rw [cleanStep, hg, hacc x (List.mem_of_getLast?_eq_some hg)]
    rw [List.foldl_cons, hstep,
      ih (fun x hx => h x (List.mem_cons_of_mem _ hx)) (acc ++ [Component.parentDir])
        (fun x hx => by
          rcases List.mem_append.mp hx with h1 | h1
          · exact hacc x h1
          · simpa using h1),
      List.append_assoc]
    rfl

/-- A relative-shaped stack is a fixed point of the stack loop. -/
theorem cleanStack_fix_rel (ps ns : List Component)
    (hps : ∀ c ∈ ps, c = Component.parentDir) (hns : ∀ c ∈ ns, c.isName = true) :
    cleanStack (ps ++ ns) = ps ++ ns := by
  rw [cleanStack, List.foldl_append,
    cleanFold_push_parents ps hps [] (by intro x hx; simp at hx),
    List.nil_append, cleanFold_push_names ns hns ps]

/-- A rooted stack is a fixed point of the stack loop. -/
theorem cleanStack_fix_abs (ns : List Component)
    (hns : ∀ c ∈ ns, c.isName = true) :
    cleanStack (Component.rootDir :: ns) = Component.rootDir :: ns := by
  rw [cleanStack, List.foldl_cons,
    show cleanStep [] Component.rootDir = [Component.rootDir] from rfl,
    cleanFold_push_names ns hns [Component.rootDir]]
  rfl

/-- A parent-or-name component is good, its text is a valid non-`"."`
chunk, and parsing its text recovers it. -/
theorem chunkComp_asStr (c : Component) (h : chunkComp c) :
    c.asStr ≠ [] ∧ c.asStr ≠ ['.'] ∧ '/' ∉ c.asStr ∧ parseChunk c.asStr = c := by
  rcases h with h | h
  · subst h
    exact ⟨by decide, by decide, by decide, by decide⟩
  · obtain ⟨m, rfl⟩ := isName_normal c h
    simp only [Component.isName, validName, Bool.and_eq_true, Bool.not_eq_true',
      beq_eq_false_iff_ne, ne_eq] at h
    have hns : '/' ∉ m := by
      intro hm
      have h2 : m.contains '/' = true := List.elem_iff.mpr hm
      rw [h.2] at h2
      exact Bool.false_ne_true h2
    refine ⟨h.1.1.1, h.1.1.2, hns, ?_⟩
    rw [show (Component.normal m).asStr = m from rfl, parseChunk, if_neg h.1.2]

/-- A parent-or-name component is good. -/
theorem goodComp_of_chunk (c : Component) (h : chunkComp c) : goodComp c := by
  rcases h with h | h
  · subst h; exact goodComp_parentDir
  · exact goodComp_of_isName c h

/-- Mapping a function that fixes every element is the identity. -/
theorem map_eq_self {α : Type} (f : α → α) :
    ∀ l : List α, (∀ x ∈ l, f x = x) → l.map f = l := by
  intro l
  induction l with
  | nil => intro _; rfl
  | cons x xs ih =>
    intro h
    rw [List.map_cons, h x (List.mem_cons_self x xs),
      ih (fun y hy => h y (List.mem_cons_of_mem x hy))]

/-- Parsing the rendering of a non-empty stack of parent-or-name
components recovers the stack. -/
theorem components_render_rel (c₀ : Component) (rest : List Component)
    (hl : ∀ c ∈ c₀ :: rest, chunkComp c) :
    components (renderStack (c₀ :: rest)) = c₀ :: rest := by
  have hgood : ∀ x ∈ c₀ :: rest, goodComp x :=
    fun x hx => goodComp_of_chunk x (hl x hx)
  have hrender : renderStack (c₀ :: rest) = joinSep ((c₀ :: rest).map Component.asStr) :=
    renderStack_good c₀ rest (hgood c₀ (List.mem_cons_self c₀ rest))
      (fun x hx => hgood x (List.mem_cons_of_mem c₀ hx))
  have hchfacts : ∀ ch ∈ (c₀ :: rest).map Component.asStr,
      ch ≠ [] ∧ ch ≠ ['.'] ∧ '/' ∉ ch := by
    intro ch hch
    rcases List.mem_map.mp hch with ⟨c, hc, rfl⟩
    obtain ⟨f1, f2, f3, _⟩ := chunkComp_asStr c (hl c hc)
    exact ⟨f1, f2, f3⟩
  have hsplit : splitSep (joinSep ((c₀ :: rest).map Component.asStr))
      = (c₀ :: rest).map Component.asStr :=
    splitSep_joinSep _ (by simp) (fun ch hch => (hchfacts ch hch).2.2)
  obtain ⟨f1, f2, f3, _⟩ := chunkComp_asStr c₀ (hl c₀ (List.mem_cons_self c₀ rest))
  obtain ⟨ch, ct, hch⟩ : ∃ ch ct, c₀.asStr = ch :: ct := by
    cases hcc : c₀.asStr with
    | nil => exact absurd hcc f1
    | cons ch ct => exact ⟨ch, ct, rfl⟩
  have hchsep : ch ≠ '/' := fun he => f3 (he ▸ hch ▸ List.mem_cons_self ch ct)
  obtain ⟨t, ht⟩ := joinSep_cons_exists c₀.asStr (rest.map Component.asStr)
  have hhead : (joinSep ((c₀ :: rest).map Component.asStr)).head? = some ch := by
    rw [List.map_cons, ht, hch]
    rfl
  have hroot : hasRoot (joinSep ((c₀ :: rest).map Component.asStr)) = false := by
    rw [hasRoot, hhead]
    simp [hchsep]
  have hcur2 : (((c₀ :: rest).map Component.asStr).head? == some ['.']) = false := by
    rw [List.map_cons]
    simp only [List.head?_cons, beq_eq_false_iff_ne, ne_eq, Option.some.injEq]
    exact f2
  have hfilter : ((c₀ :: rest).map Component.asStr).filter
      (fun c => !(c == []) && !(c == ['.'])) = (c₀ :: rest).map Component.asStr :=
    List.filter_eq_self.mpr (by
      intro ch2 hch2
      obtain ⟨g1, g2, _⟩ := hchfacts ch2 hch2
      simp [g1, g2])
  have hmap : ((c₀ :: rest).map Component.asStr).map parseChunk = c₀ :: rest := by
    rw [List.map_map]
    exact map_eq_self _ _ (fun c hc => (chunkComp_asStr c (hl c hc)).2.2.2)
  rw [hrender, components_def, hroot, hsplit, hcur2, hfilter, hmap]
  simp

/-- Parsing the rendering of a rooted stack of valid names recovers
the stack. -/
theorem components_render_abs (ns : List Component)
    (hns : ∀ c ∈ ns, c.isName = true) :
    components (renderStack (Component.rootDir :: ns))
      = Component.rootDir :: ns := by
  have hgood : ∀ x ∈ ns, goodComp x := fun x hx => goodComp_of_isName x (hns x hx)
  have hrender := renderStack_root ns hgood
  cases ns with
  | nil =>
    rw [hrender]
    decide
  | cons n tl =>
    have hchunk : ∀ c ∈ n :: tl, chunkComp c := fun c hc => Or.inr (hns c hc)
    have hchfacts : ∀ ch ∈ (n :: tl).map Component.asStr,
        ch ≠ [] ∧ ch ≠ ['.'] ∧ '/' ∉ ch := by
      intro ch hch
      rcases List.mem_map.mp hch with ⟨c, hc, rfl⟩
      obtain ⟨f1, f2, f3, _⟩ := chunkComp_asStr c (hchunk c hc)
      exact ⟨f1, f2, f3⟩
    have hsplitJ : splitSep (joinSep ((n :: tl).map Component.asStr))
        = (n :: tl).map Component.asStr :=
      splitSep_joinSep _ (by simp) (fun ch hch => (hchfacts ch hch).2.2)
    have hsplit : splitSep ('/' :: joinSep ((n :: tl).map Component.asStr))
        = [] :: (n :: tl).map Component.asStr := by
      rw [splitSep, if_pos rfl, hsplitJ]
    have hroot : hasRoot ('/' :: joinSep ((n :: tl).map Component.asStr)) = true := by
      simp [hasRoot]
    have hfilter : ([] :: (n :: tl).map Component.asStr).filter
        (fun c => !(c == []) && !(c == ['.'])) = (n :: tl).map Component.asStr := by
      rw [List.filter_cons]
      simp only [show (([] : PathStr) == []) = true from rfl, Bool.not_true,
        Bool.false_and, Bool.false_eq_true, if_false]
      exact List.filter_eq_self.mpr (by
        intro ch2 hch2
        obtain ⟨g1, g2, _⟩ := hchfacts ch2 hch2
        simp [g1, g2])
    have hmap : ((n :: tl).map Component.asStr).map parseChunk = n :: tl := by
      rw [List.map_map]
      exact map_eq_self _ _ (fun c hc => (chunkComp_asStr c (hchunk c hc)).2.2.2)
    rw [hrender, components_def, hroot, hsplit, hfilter, hmap]
    simp

/-- The current-directory component never rests on the output stack
(the `unreachable!()` of the source). -/
theorem curDir_not_on_stack (s : PathStr) :
    Component.curDir ∉ cleanStack (components s) := by
  cases hr : hasRoot s with
  | true =>
    obtain ⟨ns, hst, hns⟩ := (cleanStack_shape s).1 hr
    rw [hst]
    intro hm
    rcases List.mem_cons.mp hm with h1 | h1
    · exact Component.noConfusion h1
    · simpa [Component.isName] using hns _ h1
  | false =>
    obtain ⟨ps, ns, hst, hps, hns⟩ := (cleanStack_shape s).2 hr
    rw [hst]
    intro hm
    rcases List.mem_append.mp hm with h1 | h1
    · exact Component.noConfusion (hps _ h1)
    · simpa [Component.isName] using hns _ h1

/-- Claim C2: `clean_path` is idempotent. -/
theorem clean_path_idempotent :
    ∀ s : PathStr, clean_path (clean_path s) = clean_path s := by
  intro s
  by_cases h : cleanStack (components s) = []
  · have h1 : clean_path s = ['.'] := by simp [clean_path, h]
    rw [h1]
    decide
  · have h1 : clean_path s = renderStack (cleanStack (components s)) := by
      simp [clean_path, h]
    cases hr : hasRoot s with
    | true =>
      obtain ⟨ns, hst, hns⟩ := (cleanStack_shape s).1 hr
      rw [h1, hst]
      have hcr := components_render_abs ns hns
      have hfix := cleanStack_fix_abs ns hns
      simp [clean_path, hcr, hfix]
    | false =>
      obtain ⟨ps, ns, hst, hps, hns⟩ := (cleanStack_shape s).2 hr
      rw [h1, hst]
      have hne : ps ++ ns ≠ [] := hst ▸ h
      have hchunk : ∀ c ∈ ps ++ ns, chunkComp c := by
        intro c hc
        rcases List.mem_append.mp hc with h2 | h2
        · exact Or.inl (hps c h2)
        · exact Or.inr (hns c h2)
      obtain ⟨c₀, rest, hcons⟩ : ∃ c₀ rest, ps ++ ns = c₀ :: rest := by
        cases hpn : ps ++ ns with
        | nil => exact absurd hpn hne
        | cons c₀ rest => exact ⟨c₀, rest, rfl⟩
      rw [hcons]
      have hchunk2 : ∀ c ∈ c₀ :: rest, chunkComp c := hcons ▸ hchunk
      have hcr := components_render_rel c₀ rest hchunk2
      have hfix : cleanStack (c₀ :: rest) = c₀ :: rest :=
        hcons ▸ cleanStack_fix_rel ps ns hps hns
      simp [clean_path, hcr, hfix]

/-- Rendering a non-empty shaped stack is never the empty string. -/
theorem renderStack_ne_nil_of_chunk (c₀ : Component) (rest : List Component)
    (hl : ∀ c ∈ c₀ :: rest, chunkComp c) :
    renderStack (c₀ :: rest) ≠ [] := by
  have hgood : ∀ x ∈ c₀ :: rest, goodComp x :=
    fun x hx => goodComp_of_chunk x (hl x hx)
  rw [renderStack_good c₀ rest (hgood c₀ (List.mem_cons_self c₀ rest))
    (fun x hx => hgood x (List.mem_cons_of_mem c₀ hx)), List.map_cons]
  obtain ⟨t, ht⟩ := joinSep_cons_exists c₀.asStr (rest.map Component.asStr)
  rw [ht]
  have hf1 := (chunkComp_asStr c₀ (hl c₀ (List.mem_cons_self c₀ rest))).1
  intro he
  exact hf1 (List.append_eq_nil.mp he).1

/-- Claim C3: whenever the components of the input all cancel out —
the final stack is empty, as for the empty path or an all-`"."` path —
`clean_path` returns the single current-directory marker, and
consequently `clean_path` never returns the empty string. -/
theorem clean_path_dot_spec :
    (∀ s : PathStr, cleanStack (components s) = [] → clean_path s = ['.'])
    ∧ clean_path [] = ['.']
    ∧ clean_path ("./.".data) = ['.']
    ∧ (∀ s : PathStr, clean_path s ≠ []) := by
  refine ⟨?_, by decide, by decide, ?_⟩
  · intro s h
    simp [clean_path, h]
  · intro s
    by_cases h : cleanStack (components s) = []
    · simp [clean_path, h]
    · have h1 : clean_path s = renderStack (cleanStack (components s)) := by
        simp [clean_path, h]
      rw [h1]
      cases hr : hasRoot s with
      | true =>
        obtain ⟨ns, hst, hns⟩ := (cleanStack_shape s).1 hr
        rw [hst, renderStack_root ns (fun x hx => goodComp_of_isName x (hns x hx))]
        simp
      | false =>
        obtain ⟨ps, ns, hst, hps, hns⟩ := (cleanStack_shape s).2 hr
        rw [hst]
        have hne : ps ++ ns ≠ [] := hst ▸ h
        have hchunk : ∀ c ∈ ps ++ ns, chunkComp c := by
          intro c hc
          rcases List.mem_append.mp hc with h2 | h2
          · exact Or.inl (hps c h2)
          · exact Or.inr (hns c h2)
        obtain ⟨c₀, rest, hcons⟩ : ∃ c₀ rest, ps ++ ns = c₀ :: rest := by
          cases hpn : ps ++ ns with
          | nil => exact absurd hpn hne
          | cons c₀ rest => exact ⟨c₀, rest, rfl⟩
        rw [hcons]
        exact renderStack_ne_nil_of_chunk c₀ rest (hcons ▸ hchunk)

/-- Witness for claim C3: the empty path has an empty final stack and
cleans to the current-directory marker, which is non-empty. -/
theorem clean_path_dot_spec_witness :
    cleanStack (components ([] : PathStr)) = []
    ∧ clean_path ([] : PathStr) = ['.']
    ∧ clean_path ("./.".data) ≠ [] :=
  ⟨by decide,
    clean_path_dot_spec.1 [] (by decide),
    clean_path_dot_spec.2.2.2 ("./.".data)⟩
